import Mathlib

/-!
# Verification of the local-network device discovery library

A shallow embedding of the core of `local-devices-gen-x`:

* the connectivity probe `ping` (src/index.js, lines 116-124);
* the bounded concurrency scheduler `mapConcurrently` together with
  `takeFromIter` (src util module, lines 100-116 and 149-156), modelled as a
  small-step machine driven by a completion schedule;
* the unbounded variant `raceAll` (src util module, lines 81-88), modelled
  with the live-`Map` iteration semantics of its `for (const _ of promises)`
  loop (a `Map` iterator walks the entry list in insertion order and skips
  entries that were deleted before being visited);
* the scan session `scan` and the three facade operations `findLocalDevice`
  and `getLocalDeviceList` (src/index.js, lines 163-219);
* the helpers `toHex`, `parseIPv4`, `arrayCompare` (src util module) and the
  concurrency cap `MAX_CONCURRENT = Number(env) || 32` (src/index.js, line 104).

Asynchrony is modelled by an explicit completion schedule: the promises held
in the scheduler's window are identified by their slot keys, and a schedule is
the list of slot keys in the order in which the corresponding promises settle.
Quantifying over all schedules covers every real-time interleaving, and every
prefix of a schedule is itself a schedule, so "at any instant" facts are
stated as facts about all schedules.
-/

namespace LocalDevices

/-! ## JS number coercion and the concurrency cap (src/index.js line 104) -/

/-- Value of a digit list read in base 10, as JS does for decimal literals. -/
def digitsToNat (ds : List Char) : Nat :=
  ds.foldl (fun n c => 10 * n + (c.toNat - 48)) 0

/-- Characterwise whitespace trimming (what JS `Number` does to a string
before parsing it). -/
def trimChars (cs : List Char) : List Char :=
  ((cs.dropWhile Char.isWhitespace).reverse.dropWhile Char.isWhitespace).reverse

/-- A JS number as `Number(string)` can produce one: `NaN`, one of the two
infinities, or a finite value. Finite values are modelled exactly as
rationals (the cap is only ever tested against small loop counters, where
double rounding plays no role). -/
inductive JSNum : Type
  | nan : JSNum
  | posInf : JSNum
  | negInf : JSNum
  | finite : Rat → JSNum
deriving DecidableEq

/-- Hexadecimal digit value of a character, if it is one. -/
def hexVal (c : Char) : Option Nat :=
  if '0' ≤ c ∧ c ≤ '9' then some (c.toNat - 48)
  else if 'a' ≤ c ∧ c ≤ 'f' then some (c.toNat - 87)
  else if 'A' ≤ c ∧ c ≤ 'F' then some (c.toNat - 55)
  else none

/-- Digit value of a character in the given radix (2, 8, 10 or 16), if any. -/
def radixVal (radix : Nat) (c : Char) : Option Nat :=
  match hexVal c with
  | some v => if v < radix then some v else none
  | none => none

/-- Accumulating value of a digit string in the given radix; `none` as soon
as a character is not a digit of that radix. -/
def digitsAux (radix : Nat) (acc : Nat) : List Char → Option Nat
  | [] => some acc
  | c :: cs =>
    match radixVal radix c with
    | some v => digitsAux radix (radix * acc + v) cs
    | none => none

/-- Value of a nonempty digit string in the given radix — the
`DecimalDigits` / `BinaryDigits` / `OctalDigits` / `HexDigits` productions of
the ECMAScript `StrNumericLiteral` grammar. -/
def digitsInRadix (radix : Nat) (ds : List Char) : Option Nat :=
  match ds with
  | [] => none
  | _ => digitsAux radix 0 ds

/-- The `ExponentPart` after its `e`/`E`: an optional sign and decimal
digits. -/
def parseExponent (cs : List Char) : Option Int :=
  match cs with
  | '+' :: ds => (digitsInRadix 10 ds).map (fun n => (n : Int))
  | '-' :: ds => (digitsInRadix 10 ds).map (fun n => -(n : Int))
  | ds => (digitsInRadix 10 ds).map (fun n => (n : Int))

/-- Scale a value by a decimal exponent. -/
def applyExp (q : Rat) (e : Int) : Rat :=
  if 0 ≤ e then q * (10 : Rat) ^ e.toNat else q / (10 : Rat) ^ (-e).toNat

/-- `StrUnsignedDecimalLiteral` minus its `Infinity` alternative (handled by
the caller): `DecimalDigits . DecimalDigits? ExponentPart?`,
`. DecimalDigits ExponentPart?` or `DecimalDigits ExponentPart?`; `none`
stands for `NaN`. -/
def parseUnsignedDec (cs : List Char) : Option Rat :=
  let ipart := (cs.span Char.isDigit).1
  let rest1 := (cs.span Char.isDigit).2
  match rest1 with
  | [] => if ipart.isEmpty then none else some (digitsToNat ipart : Rat)
  | '.' :: rest2 =>
    let fpart := (rest2.span Char.isDigit).1
    let rest3 := (rest2.span Char.isDigit).2
    if ipart.isEmpty && fpart.isEmpty then none
    else
      let base : Rat :=
        if fpart.isEmpty then (digitsToNat ipart : Rat)
        else (digitsToNat ipart : Rat) + (digitsToNat fpart : Rat) / (10 : Rat) ^ fpart.length
      match rest3 with
      | [] => some base
      | 'e' :: ecs => (parseExponent ecs).map (applyExp base)
      | 'E' :: ecs => (parseExponent ecs).map (applyExp base)
      | _ => none
  | 'e' :: ecs =>
    if ipart.isEmpty then none else (parseExponent ecs).map (applyExp (digitsToNat ipart : Rat))
  | 'E' :: ecs =>
    if ipart.isEmpty then none else (parseExponent ecs).map (applyExp (digitsToNat ipart : Rat))
  | _ => none

/-- `StrDecimalLiteral` after its optional sign: `Infinity` or an unsigned
decimal literal, negated when a minus sign preceded. -/
def parseSignedDec (neg : Bool) (cs : List Char) : JSNum :=
  if cs = ['I', 'n', 'f', 'i', 'n', 'i', 't', 'y'] then
    if neg then JSNum.negInf else JSNum.posInf
  else
    match parseUnsignedDec cs with
    | some q => JSNum.finite (if neg then -q else q)
    | none => JSNum.nan

/-- A non-decimal integer literal body in the given radix. -/
def ofRadix (radix : Nat) (ds : List Char) : JSNum :=
  match digitsInRadix radix ds with
  | some n => JSNum.finite (n : Rat)
  | none => JSNum.nan

/-- The ECMAScript `StrNumericLiteral` grammar of the `Number(string)`
conversion: a non-decimal integer literal (`0x`/`0X` hex, `0o`/`0O` octal,
`0b`/`0B` binary — no sign allowed on these), or a signed decimal literal
(`Infinity` included); anything else is `NaN`. -/
def parseStrNumeric (cs : List Char) : JSNum :=
  match cs with
  | '0' :: 'x' :: ds => ofRadix 16 ds
  | '0' :: 'X' :: ds => ofRadix 16 ds
  | '0' :: 'o' :: ds => ofRadix 8 ds
  | '0' :: 'O' :: ds => ofRadix 8 ds
  | '0' :: 'b' :: ds => ofRadix 2 ds
  | '0' :: 'B' :: ds => ofRadix 2 ds
  | '+' :: rest => parseSignedDec false rest
  | '-' :: rest => parseSignedDec true rest
  | rest => parseSignedDec false rest

/-- JS `Number(process.env.X)`: an unset variable (`undefined`) coerces to
`NaN`; a string is trimmed and an empty or all-whitespace string coerces to
`0`; anything else is parsed as a `StrNumericLiteral`. -/
def jsNumber : Option String → JSNum
  | none => JSNum.nan
  | some s =>
    let cs := trimChars s.data
    if cs.isEmpty then JSNum.finite 0 else parseStrNumeric cs

/-- `const MAX_CONCURRENT = Number(process.env.LOCAL_DEVICES_MAX_CONCURRENT) || 32`
(src/index.js line 104). `||` falls back to `32` exactly when the left side
is falsy, i.e. `NaN` or a zero; every other number — negative, fractional or
infinite included — is kept as is. -/
def MAX_CONCURRENT (env : Option String) : JSNum :=
  match jsNumber env with
  | JSNum.nan => JSNum.finite 32
  | JSNum.finite q => if q = 0 then JSNum.finite 32 else JSNum.finite q
  | JSNum.posInf => JSNum.posInf
  | JSNum.negInf => JSNum.negInf

/-! ## The connectivity probe (src/index.js lines 116-124) -/

/-- The three socket events `ping` subscribes to: the connect callback, the
`error` handler and the timeout handler. Whichever fires first settles the
promise. -/
inductive SocketEvent : Type
  | connected : SocketEvent
  | errored : SocketEvent
  | timedOut : SocketEvent
deriving DecidableEq

/-- Outcome of a JS promise: settled with a value, or rejected. -/
inductive PromiseOutcome (α : Type) : Type
  | resolved : α → PromiseOutcome α
  | rejected : PromiseOutcome α
deriving DecidableEq

/-- `ping(address)` (src/index.js lines 116-124): all three socket events are
wired to the same `close` callback, which destroys the socket and calls
`resolve(address)`; the executor never calls `reject` and never throws for a
string address. -/
def ping (address : String) (ev : SocketEvent) : PromiseOutcome String :=
  match ev with
  | SocketEvent.connected => PromiseOutcome.resolved address
  | SocketEvent.errored => PromiseOutcome.resolved address
  | SocketEvent.timedOut => PromiseOutcome.resolved address

/-- The value a settled `ping(address)` promise carries, namely `address`
itself (this is what the scheduler hands to the neighbour-table lookup). -/
def pingResult (address : String) : String := address

/-! ## The bounded scheduler `mapConcurrently` (src util, lines 100-116)

State of one `mapConcurrently(xs, n, f)` invocation:

* `window` is the `promises` map, a list of (slot key, input item) pairs for
  the in-flight operations — the promise in slot `i` will settle with
  `f item`;
* `rest` is the part of the input iterator `it` not yet drawn;
* `out` is the sequence of values yielded so far;
* `started` records, in order, every input item on which the worker `f` has
  been invoked (the probe-invocation trace).

`mcStep f s i` is one turn of the `while (promises.size > 0)` loop in which
the promise tagged with slot key `i` wins the `Promise.race`: the slot is
deleted, its value is yielded, and if the iterator has another item a new
worker is started in the same slot. A schedule key that is not currently in
the window cannot win the race, so such a step is a no-op. -/

structure MCState (X Y : Type) : Type where
  window : List (Nat × X)
  rest : List X
  out : List Y
  started : List X
deriving DecidableEq

/-- `takeFromIter(it, n)` (src util, lines 149-156): draw the first `n` items
from the iterator. -/
def takeFromIter {X : Type} (xs : List X) (n : Nat) : List X :=
  xs.take n

/-- Initial scheduler state: the batch of the first `K` items is drawn and a
worker is started for each, tagged with slot keys `0, 1, ...` (the array
indices used to build the `promises` map). -/
def mcInit {X Y : Type} (xs : List X) (K : Nat) : MCState X Y :=
  ⟨(takeFromIter xs K).enum, xs.drop K, [], takeFromIter xs K⟩

/-- One completion step of `mapConcurrently` (see `MCState`). -/
def mcStep {X Y : Type} (f : X → Y) (s : MCState X Y) (i : Nat) : MCState X Y :=
  match s.window.find? (fun p => p.1 == i) with
  | none => s
  | some (_, x) =>
    let w := s.window.filter (fun p => p.1 != i)
    match s.rest with
    | [] => ⟨w, [], s.out ++ [f x], s.started⟩
    | x' :: r => ⟨w ++ [(i, x')], r, s.out ++ [f x], s.started ++ [x']⟩

/-- Run the scheduler under a completion schedule (the list of slot keys in
settlement order). -/
def mcRun {X Y : Type} (f : X → Y) (s : MCState X Y) (sched : List Nat) : MCState X Y :=
  sched.foldl (mcStep f) s

/-! ## The unbounded variant `raceAll` (src util, lines 81-88)

`raceAll` races a `Map` of all promises at once, but its loop is
`for (const _ of promises)` — an iteration over the **live** `Map`. A JS `Map`
iterator walks the internal entry list in insertion order; an entry deleted
before the iterator reaches it is skipped. `entries` below is that entry
list (`none` marks a deleted entry), and `pos` is the iterator's position. -/

structure RAState (Y : Type) : Type where
  entries : List (Option Y)
  pos : Nat
  out : List Y
deriving DecidableEq

/-- Initial `raceAll` state: every promise is a live entry, the iterator is at
the start. -/
def raInit {Y : Type} (ys : List Y) : RAState Y :=
  ⟨ys.map some, 0, []⟩

/-- Index of the first live entry at or after position `p`, if any — the next
entry the `Map` iterator will produce. -/
def firstLive {Y : Type} : List (Option Y) → Nat → Option Nat
  | [], _ => none
  | e :: es, 0 => if e.isSome then some 0 else (firstLive es 0).map (· + 1)
  | _ :: es, p + 1 => (firstLive es p).map (· + 1)

/-- One turn of `raceAll`'s loop in which the promise stored at entry `i`
wins the race: the `for (const _ of promises)` header first asks the live
iterator for an entry (ending the loop if none remains), then the body
deletes entry `i` and yields its value. A deleted or out-of-range `i` cannot
win the race, so such a step is a no-op. -/
def raStep {Y : Type} (s : RAState Y) (i : Nat) : RAState Y :=
  match firstLive s.entries s.pos with
  | none => s
  | some p =>
    match s.entries.getD i none with
    | some y => ⟨s.entries.set i none, p + 1, s.out ++ [y]⟩
    | none => s

/-- Run `raceAll` under a completion schedule. -/
def raRun {Y : Type} (s : RAState Y) (sched : List Nat) : RAState Y :=
  sched.foldl raStep s

/-! ## Device records and the string helpers (src util) -/

/-- An address-resolution table entry (the `Device` typedef): `ip` and `mac`
are always present, the other fields are platform dependent. -/
structure Device : Type where
  ip : String
  mac : String
  flag : Option String := none
  iface : Option String := none
  ifname : Option String := none
deriving DecidableEq

/-- The characters kept by the regex `[^0-9a-f]` replacement. -/
def isHexChar (c : Char) : Bool :=
  (('0' ≤ c) && (c ≤ '9')) || (('a' ≤ c) && (c ≤ 'f'))

/-- `toHex = mac => mac.toLowerCase().replace(/[^0-9a-f]/g, '')` (src util,
lines 118-123): lower-case the string, then delete every character that is
not a lowercase hexadecimal digit. (`toLowerCase` is modelled characterwise
by `Char.toLower`; MAC addresses are ASCII.) -/
def toHex (mac : String) : String :=
  String.mk ((mac.data.map Char.toLower).filter isHexChar)

/-- The spec's normalization of a MAC address: lower-case it and remove all
non-hexadecimal characters. -/
def specMacNormalize (mac : String) : String :=
  String.mk ((mac.data.map Char.toLower).filter isHexChar)

/-- The match test of `findLocalDevice` (src/index.js lines 197 and 201):
the entry's normalized MAC equals the normalized query, or its IP is
literally the query. -/
def matchesQuery (macOrIP : String) (d : Device) : Bool :=
  (toHex d.mac == toHex macOrIP) || (d.ip == macOrIP)

/-- `String.prototype.split('.')` on the character sequence: cut at every
dot; `"".split('.')` is `[""]`, so the result always has one more group than
there are dots. -/
def splitDot : List Char → List (List Char)
  | [] => [[]]
  | c :: cs =>
    let r := splitDot cs
    if c = '.' then [] :: r
    else
      match r with
      | [] => [[c]]
      | g :: gs => (c :: g) :: gs

/-- JS `Number` on one split component: a digit string has its base-10 value
(the empty string coerces to 0, as in JS). (On a component with a non-digit
character JS produces `NaN`; this model is used, like the source, only on
dotted-quad IP strings, where every component is a digit string.) -/
def numComponent (g : List Char) : Int :=
  if g.all Char.isDigit then (digitsToNat g : Int) else 0

/-- `parseIPv4 = ip => ip.split('.').map(Number)` (src util, line 129). -/
def parseIPv4 (ip : String) : List Int :=
  (splitDot ip.data).map numComponent

/-- `Math.sign` on integers. -/
def sign (n : Int) : Int :=
  if n < 0 then -1 else if 0 < n then 1 else 0

/-- `arrayCompare` (src util, lines 136-140): compare the heads numerically
via `Math.sign(as[0] - bs[0])` and recurse on the tails while the heads tie
and `as` has more than one element. (The source is only ever applied to two
length-4 octet lists; on two empty lists JS would index out of range.) -/
def arrayCompare : List Int → List Int → Int
  | a :: as, b :: bs =>
    let res := sign (a - b)
    if res = 0 ∧ as ≠ [] then arrayCompare as bs else res
  | _, _ => 0

/-- Spec-side canonical IP ordering: lexicographic over the octet lists with
each octet compared as a number (so `10.0.0.2` comes before `10.0.0.10`). -/
def octetsLe : List Int → List Int → Bool
  | [], _ => true
  | _ :: _, [] => false
  | a :: as, b :: bs => decide (a < b) || (decide (a = b) && octetsLe as bs)

/-- The sort comparator of `getLocalDeviceList` (src/index.js line 218), as a
"less or equal" test: `arrayCompare(parseIPv4(a.ip), parseIPv4(b.ip)) <= 0`. -/
def devLe (a b : Device) : Bool :=
  decide (arrayCompare (parseIPv4 a.ip) (parseIPv4 b.ip) ≤ 0)

/-- A dotted-quad IPv4 string: four dot-separated nonempty digit components
(what an address-resolution table stores in its `ip` field). -/
def validQuad (ip : String) : Bool :=
  ((splitDot ip.data).length == 4) &&
    (splitDot ip.data).all (fun g => (!g.isEmpty) && g.all Char.isDigit)

/-- Insert into a list sorted by `le` (model of one step of a comparison
sort; `Array.prototype.sort` guarantees an output sorted by the comparator
whenever the comparator is consistent). -/
def orderedInsertBy {α : Type} (le : α → α → Bool) (a : α) : List α → List α
  | [] => [a]
  | b :: l => if le a b then a :: b :: l else b :: orderedInsertBy le a l

/-- Comparison sort by `le` (model of `Array.prototype.sort`). -/
def sortBy {α : Type} (le : α → α → Bool) : List α → List α
  | [] => []
  | a :: l => orderedInsertBy le a (sortBy le l)

/-! ## The scan session and the facade (src/index.js lines 163-219) -/

/-- The body of `scan`'s loop over completed hosts: for each host, look it up
in the neighbour table (`await ipLookup(host) || []`) and yield every entry
whose IP is a member of the target set. -/
def scanEmit (S : List String) (lookup : String → Option (List Device))
    (hosts : List String) : List Device :=
  hosts.flatMap (fun host => ((lookup host).getD []).filter (fun d => S.contains d.ip))

/-- `scan(ipSet)` (src/index.js lines 163-169) under a completion schedule:
drive `mapConcurrently(ipSet, K, ping)` and feed each completed host through
the lookup/filter loop. Returns the emitted device stream together with the
probe-invocation trace. -/
def scanRun (S : List String) (K : Nat) (lookup : String → Option (List Device))
    (sched : List Nat) : List Device × List String :=
  let m := mcRun pingResult (mcInit S K) sched
  (scanEmit S lookup m.out, m.started)

/-- The cache check of `findLocalDevice` (src/index.js lines 195-198): filter
the bulk table read to the target set and return the first matching entry. -/
def cacheHit (macOrIP : String) (S : List String) (table : List Device) : Option Device :=
  (table.filter (fun d => S.contains d.ip)).find? (matchesQuery macOrIP)

/-- `findLocalDevice(macOrIP, ...)` (src/index.js lines 190-203): consult the
cached table first; only on a miss fall through to an active scan. The second
component is the probe-invocation trace (empty when the cache hits, the
scan's trace otherwise). -/
def findLocalDeviceRun (macOrIP : String) (S : List String) (table : List Device)
    (K : Nat) (lookup : String → Option (List Device)) (sched : List Nat) :
    Option Device × List String :=
  match cacheHit macOrIP S table with
  | some d => (some d, [])
  | none =>
    let m := mcRun pingResult (mcInit S K) sched
    ((scanEmit S lookup m.out).find? (matchesQuery macOrIP), m.started)

/-- `getLocalDeviceList` (src/index.js lines 211-219): after draining all
probes, read the full table, filter it to the target set and sort it with
`arrayCompare` over the parsed IPs. -/
def getLocalDeviceList (S : List String) (table : List Device) : List Device :=
  sortBy devLe (table.filter (fun d => S.contains d.ip))

/-! ## Scheduler invariants -/

/-- One scheduler step cannot grow the window beyond its current bound: the
race consumes one slot and the refill re-occupies at most that slot. -/
theorem mcStep_window_length_le {X Y : Type} (f : X → Y) (s : MCState X Y) (i : Nat)
    (K : Nat) (h : s.window.length ≤ K) : ((mcStep f s i).window).length ≤ K := by
  simp only [mcStep]
  split
  · exact h
  · rename_i p x heq
    have hmem := List.mem_of_find?_eq_some heq
    have hpj := List.find?_some heq
    have hlt : (s.window.filter (fun p => p.1 != i)).length < s.window.length := by
      refine List.length_filter_lt_length_iff_exists.mpr ⟨_, hmem, ?_⟩
      simp [bne, hpj]
    split
    · exact le_trans (List.length_filter_le _ _) h
    · simp only [List.length_append, List.length_singleton]
      omega

/-- The window bound is preserved along any schedule. -/
theorem mcRun_window_length_le {X Y : Type} (f : X → Y) (K : Nat) :
    ∀ (sched : List Nat) (s : MCState X Y), s.window.length ≤ K →
      ((mcRun f s sched).window).length ≤ K := by
  intro sched
  induction sched with
  | nil => intro s h; exact h
  | cons i t ih =>
    intro s h
    simp only [mcRun, List.foldl_cons]
    exact ih (mcStep f s i) (mcStep_window_length_le f s i K h)

/-- The probe trace followed by the undrawn input is the whole input: a step
moves the head of `rest` (if any) into the trace and touches nothing else. -/
theorem mcStep_started_append_rest {X Y : Type} (f : X → Y) (s : MCState X Y) (i : Nat) :
    (mcStep f s i).started ++ (mcStep f s i).rest = s.started ++ s.rest := by
  simp only [mcStep]
  split
  · rfl
  · split
    · rename_i hr
      simp [hr]
    · rename_i x' r hr
      simp [hr]

/-- Run-level version of `mcStep_started_append_rest`. -/
theorem mcRun_started_append_rest {X Y : Type} (f : X → Y) :
    ∀ (sched : List Nat) (s : MCState X Y),
      (mcRun f s sched).started ++ (mcRun f s sched).rest = s.started ++ s.rest := by
  intro sched
  induction sched with
  | nil => intro s; rfl
  | cons i t ih =>
    intro s
    simp only [mcRun, List.foldl_cons]
    rw [show (List.foldl (mcStep f) (mcStep f s i) t) = mcRun f (mcStep f s i) t from rfl,
      ih (mcStep f s i), mcStep_started_append_rest]

/-- While input remains undrawn the window is inhabited: a step that consumes
a slot refills it from the nonempty `rest`. -/
theorem mcStep_window_ne {X Y : Type} (f : X → Y) (s : MCState X Y) (i : Nat)
    (h : s.rest ≠ [] → s.window ≠ []) :
    (mcStep f s i).rest ≠ [] → (mcStep f s i).window ≠ [] := by
  simp only [mcStep]
  split
  · exact h
  · split
    · intro hr
      exact absurd rfl hr
    · intro _
      exact List.append_ne_nil_of_right_ne_nil _ (by simp)

/-- Run-level version of `mcStep_window_ne`. -/
theorem mcRun_window_ne {X Y : Type} (f : X → Y) :
    ∀ (sched : List Nat) (s : MCState X Y), (s.rest ≠ [] → s.window ≠ []) →
      ((mcRun f s sched).rest ≠ [] → (mcRun f s sched).window ≠ []) := by
  intro sched
  induction sched with
  | nil => intro s h; exact h
  | cons i t ih =>
    intro s h
    simp only [mcRun, List.foldl_cons]
    exact ih (mcStep f s i) (mcStep_window_ne f s i h)

/-- In the initial state the probe trace plus the undrawn input is the input. -/
theorem mcInit_started_append_rest {X Y : Type} (xs : List X) (K : Nat) :
    (mcInit xs K : MCState X Y).started ++ (mcInit xs K : MCState X Y).rest = xs := by
  simp [mcInit, takeFromIter]

/-- With `K ≥ 1` the initial window is inhabited whenever input remains. -/
theorem mcInit_window_ne {X Y : Type} (xs : List X) (K : Nat) (hK : 1 ≤ K) :
    (mcInit xs K : MCState X Y).rest ≠ [] → (mcInit xs K : MCState X Y).window ≠ [] := by
  intro hr hw
  simp only [mcInit, takeFromIter] at hr hw
  have h1 : (xs.take K).enum.length = 0 := by rw [hw]; rfl
  have h2 : (xs.drop K).length ≠ 0 := by
    intro h0
    exact hr (List.eq_nil_of_length_eq_zero h0)
  rw [List.enum_length, List.length_take] at h1
  rw [List.length_drop] at h2
  omega

/-! ## Claim theorems, part one -/

/-- Claim C1: for every finite input, every limit `K ≥ 1` and every worker, the
bounded scheduler `mapConcurrently` never holds more than `K` worker
invocations in its in-flight window, under every completion schedule (hence
at every instant, since each prefix of a schedule is a schedule), for any
input size — including `K = 1` and `K ≥` input size. -/
theorem mapConcurrently_window_bounded {X Y : Type} (xs : List X) (K : Nat) (f : X → Y)
    (sched : List Nat) (hK : 1 ≤ K) :
    ((mcRun f (mcInit xs K) sched).window).length ≤ K := by
  refine mcRun_window_length_le f K sched _ ?_
  simp only [mcInit, takeFromIter, List.enum_length, List.length_take]
  omega

/-- Witness for C1 at a concrete input: three items, limit 2, a schedule that
drains the machine. -/
theorem mapConcurrently_window_bounded_witness :
    1 ≤ 2 ∧
    ((mcRun (fun x => x * 10) (mcInit [1, 2, 3] 2) [0, 1, 0]).window).length ≤ 2 :=
  ⟨by decide, mapConcurrently_window_bounded [1, 2, 3] 2 (fun x => x * 10) [0, 1, 0] (by decide)⟩

/-- Evidence for C2: the failing input for the claimed `mapConcurrently` /
`raceAll` equivalence. Two inputs, limit `K = 2 ≥` input size, and a schedule
on which the promise in slot 1 settles before the promise in slot 0. The
bounded scheduler yields both values in completion order, but `raceAll` —
whose `for (const _ of promises)` loop iterates the live `Map` and therefore
skips entries deleted behind the iterator — terminates after yielding one
value and drops the other, contradicting the claimed equivalence (and
`raceAll`'s own doc comment, which promises all values in completion order).
With the in-input-order schedule the two do agree, as the last conjunct
shows. -/
theorem raceAll_drops_result_on_failing_input :
    (mcRun pingResult (mcInit ["10.0.0.1", "10.0.0.2"] 2) [1, 0]).out
      = ["10.0.0.2", "10.0.0.1"] ∧
    (raRun (raInit (["10.0.0.1", "10.0.0.2"].map pingResult)) [1, 0]).out
      = ["10.0.0.2"] ∧
    (raRun (raInit (["10.0.0.1", "10.0.0.2"].map pingResult)) [1, 0]).out
      ≠ (mcRun pingResult (mcInit ["10.0.0.1", "10.0.0.2"] 2) [1, 0]).out ∧
    (raRun (raInit (["10.0.0.1", "10.0.0.2"].map pingResult)) [0, 1]).out
      = (mcRun pingResult (mcInit ["10.0.0.1", "10.0.0.2"] 2) [0, 1]).out := by
  exact ⟨by decide, by decide, by decide, by decide⟩

/-- Claim C3: the probe resolves to exactly the address it was given in every case
— successful connect, error, or timeout — and never rejects. -/
theorem ping_never_fails :
    ∀ (address : String) (ev : SocketEvent),
      ping address ev = PromiseOutcome.resolved address := by
  intro address ev
  cases ev <;> rfl

/-- Claim C4: a fully drained scan call (a schedule that empties the scheduler's
window) invokes the probe exactly once per address of the IP set: the probe
invocation trace is the address list itself. -/
theorem scan_probes_exactly_once (S : List String) (K : Nat)
    (lookup : String → Option (List Device)) (sched : List Nat) (hK : 1 ≤ K)
    (hdrained : (mcRun pingResult (mcInit S K) sched).window = []) :
    (scanRun S K lookup sched).2 = S := by
  have hrest : (mcRun pingResult (mcInit S K) sched).rest = [] := by
    by_contra hne
    exact mcRun_window_ne pingResult sched _ (mcInit_window_ne S K hK) hne hdrained
  have h := mcRun_started_append_rest pingResult sched (mcInit S K)
  rw [mcInit_started_append_rest, hrest, List.append_nil] at h
  simpa [scanRun] using h

/-- Witness for C4: three addresses, limit 2, a draining schedule. -/
theorem scan_probes_exactly_once_witness :
    1 ≤ 2 ∧
    (mcRun pingResult (mcInit ["10.0.0.1", "10.0.0.2", "10.0.0.3"] 2) [0, 1, 0]).window = [] ∧
    (scanRun ["10.0.0.1", "10.0.0.2", "10.0.0.3"] 2 (fun _ => none) [0, 1, 0]).2
      = ["10.0.0.1", "10.0.0.2", "10.0.0.3"] :=
  ⟨by decide, by decide,
    scan_probes_exactly_once ["10.0.0.1", "10.0.0.2", "10.0.0.3"] 2 (fun _ => none)
      [0, 1, 0] (by decide) (by decide)⟩

/-- Claim C5: whatever the neighbour-table lookup returns, every device emitted by
the scan stream has an `ip` that is a member of the target IP set — the
membership filter guards every yield. -/
theorem scan_emits_only_members (S : List String) (K : Nat)
    (lookup : String → Option (List Device)) (sched : List Nat) (d : Device)
    (hd : d ∈ (scanRun S K lookup sched).1) : d.ip ∈ S := by
  simp only [scanRun, scanEmit] at hd
  obtain ⟨host, _, hmem⟩ := List.mem_flatMap.mp hd
  have hc := (List.mem_filter.mp hmem).2
  simpa using hc

/-- Witness for C5: a concrete scan emitting one device. -/
theorem scan_emits_only_members_witness :
    (⟨"1.1.1.1", "aa:bb:cc:dd:ee:ff", none, none, none⟩ : Device)
        ∈ (scanRun ["1.1.1.1"] 1
            (fun _ => some [⟨"1.1.1.1", "aa:bb:cc:dd:ee:ff", none, none, none⟩]) [0]).1 ∧
    "1.1.1.1" ∈ ["1.1.1.1"] :=
  ⟨by decide,
    scan_emits_only_members ["1.1.1.1"] 1
      (fun _ => some [⟨"1.1.1.1", "aa:bb:cc:dd:ee:ff", none, none, none⟩]) [0]
      ⟨"1.1.1.1", "aa:bb:cc:dd:ee:ff", none, none, none⟩ (by decide)⟩

/-- Claim C8: MAC comparison is case- and separator-insensitive: the code's
normalizer `toHex` is exactly the spec's normalization (lower-case, then drop
every non-hexadecimal character), two MACs match exactly when their
normalizations agree, and in particular the query `AA:BB:CC:DD:EE:FF`
matches the table entry `aabbccddeeff`. -/
theorem mac_comparison_normalized :
    (∀ m : String, toHex m = specMacNormalize m) ∧
    (∀ q m : String, (toHex m == toHex q) = (specMacNormalize m == specMacNormalize q)) ∧
    (∀ q : String, ∀ d : Device,
      matchesQuery q d = ((toHex d.mac == toHex q) || (d.ip == q))) ∧
    toHex "AA:BB:CC:DD:EE:FF" = "aabbccddeeff" ∧
    matchesQuery "AA:BB:CC:DD:EE:FF"
      ⟨"1.2.3.4", "aabbccddeeff", none, none, none⟩ = true := by
  exact ⟨fun m => rfl, fun q m => rfl, fun q d => rfl, by decide, by decide⟩

/-- Claim C9: when the bulk table read restricted to the target set already holds a
matching entry, `findLocalDevice` returns that entry, the probe trace is
empty (no address is pinged), and the returned entry really is a matching
member of the filtered table. -/
theorem findLocalDevice_cache_hit (macOrIP : String) (S : List String)
    (table : List Device) (K : Nat) (lookup : String → Option (List Device))
    (sched : List Nat) (d : Device) (h : cacheHit macOrIP S table = some d) :
    findLocalDeviceRun macOrIP S table K lookup sched = (some d, []) ∧
    matchesQuery macOrIP d = true ∧ d ∈ table ∧ S.contains d.ip = true := by
  have hfind : (table.filter (fun d => S.contains d.ip)).find? (matchesQuery macOrIP)
      = some d := h
  refine ⟨?_, List.find?_some hfind, ?_, ?_⟩
  · simp [findLocalDeviceRun, h]
  · exact (List.mem_filter.mp (List.mem_of_find?_eq_some hfind)).1
  · exact (List.mem_filter.mp (List.mem_of_find?_eq_some hfind)).2

/-- Witness for C9: a query already cached in the table. -/
theorem findLocalDevice_cache_hit_witness :
    cacheHit "AA-BB-CC-DD-EE-FF" ["1.1.1.1"]
        [⟨"1.1.1.1", "aa:bb:cc:dd:ee:ff", none, none, none⟩]
      = some ⟨"1.1.1.1", "aa:bb:cc:dd:ee:ff", none, none, none⟩ ∧
    findLocalDeviceRun "AA-BB-CC-DD-EE-FF" ["1.1.1.1"]
        [⟨"1.1.1.1", "aa:bb:cc:dd:ee:ff", none, none, none⟩] 1 (fun _ => none) [0]
      = (some ⟨"1.1.1.1", "aa:bb:cc:dd:ee:ff", none, none, none⟩, []) :=
  ⟨by decide,
    (findLocalDevice_cache_hit "AA-BB-CC-DD-EE-FF" ["1.1.1.1"]
      [⟨"1.1.1.1", "aa:bb:cc:dd:ee:ff", none, none, none⟩] 1 (fun _ => none) [0]
      ⟨"1.1.1.1", "aa:bb:cc:dd:ee:ff", none, none, none⟩ (by decide)).1⟩

/-- Claim C10: the effective concurrency cap is `Number(v) || 32`: an unset,
empty or `"0"` setting, and more generally any string that does not parse to
a nonzero number (`NaN` or a zero value), yields exactly 32; every string
that parses to a nonzero number — negative, fractional, non-decimal
(hex/octal/binary) or infinite included — is used as is as the scheduler
limit. -/
theorem MAX_CONCURRENT_spec :
    MAX_CONCURRENT none = JSNum.finite 32 ∧
    MAX_CONCURRENT (some "") = JSNum.finite 32 ∧
    MAX_CONCURRENT (some "0") = JSNum.finite 32 ∧
    (∀ s, jsNumber (some s) = JSNum.nan → MAX_CONCURRENT (some s) = JSNum.finite 32) ∧
    (∀ s, jsNumber (some s) = JSNum.finite 0 → MAX_CONCURRENT (some s) = JSNum.finite 32) ∧
    (∀ s q, jsNumber (some s) = JSNum.finite q → q ≠ 0 →
      MAX_CONCURRENT (some s) = JSNum.finite q) ∧
    (∀ s, jsNumber (some s) = JSNum.posInf → MAX_CONCURRENT (some s) = JSNum.posInf) ∧
    (∀ s, jsNumber (some s) = JSNum.negInf → MAX_CONCURRENT (some s) = JSNum.negInf) := by
  refine ⟨rfl, by decide, by decide, ?_, ?_, ?_, ?_, ?_⟩
  · intro s h
    simp [MAX_CONCURRENT, h]
  · intro s h
    simp [MAX_CONCURRENT, h]
  · intro s q h hq
    simp [MAX_CONCURRENT, h, hq]
  · intro s h
    simp [MAX_CONCURRENT, h]
  · intro s h
    simp [MAX_CONCURRENT, h]

/-- Witness for C10: a non-numeric setting falls back to 32, as does `"00"`
(a string parsing to zero other than `"0"` itself); a negative decimal, a
hexadecimal (`Number("0x10") = 16`) and an `Infinity` setting are used as
is. -/
theorem MAX_CONCURRENT_spec_witness :
    (jsNumber (some "abc") = JSNum.nan ∧
      MAX_CONCURRENT (some "abc") = JSNum.finite 32) ∧
    (jsNumber (some "00") = JSNum.finite 0 ∧
      MAX_CONCURRENT (some "00") = JSNum.finite 32) ∧
    (jsNumber (some "-5") = JSNum.finite (-5) ∧ ((-5 : Rat) ≠ 0) ∧
      MAX_CONCURRENT (some "-5") = JSNum.finite (-5)) ∧
    (jsNumber (some "0x10") = JSNum.finite 16 ∧ ((16 : Rat) ≠ 0) ∧
      MAX_CONCURRENT (some "0x10") = JSNum.finite 16) ∧
    (jsNumber (some "Infinity") = JSNum.posInf ∧
      MAX_CONCURRENT (some "Infinity") = JSNum.posInf) :=
  ⟨⟨by decide, MAX_CONCURRENT_spec.2.2.2.1 "abc" (by decide)⟩,
   ⟨by decide, MAX_CONCURRENT_spec.2.2.2.2.1 "00" (by decide)⟩,
   ⟨by decide, by decide, MAX_CONCURRENT_spec.2.2.2.2.2.1 "-5" (-5) (by decide) (by decide)⟩,
   ⟨by decide, by decide, MAX_CONCURRENT_spec.2.2.2.2.2.1 "0x10" 16 (by decide) (by decide)⟩,
   ⟨by decide, MAX_CONCURRENT_spec.2.2.2.2.2.2.1 "Infinity" (by decide)⟩⟩

/-! ## Conservation of work items in the scheduler

The `promises` map of `mapConcurrently` keys each in-flight operation by its
slot, and slot keys stay pairwise distinct; consequently every step moves
exactly one item from the window to the output, and the output, the window
and the undrawn input together always form a permutation of the whole input's
image. -/

/-- With duplicate-free slot keys, the entry found for key `i` has key `i`,
and deleting by key removes exactly that entry. -/
theorem window_extract {X : Type} :
    ∀ (w : List (Nat × X)) (i j : Nat) (x : X),
      (w.map Prod.fst).Nodup → w.find? (fun p => p.1 == i) = some (j, x) →
      j = i ∧ w.Perm ((j, x) :: w.filter (fun p => p.1 != i)) := by
  intro w
  induction w with
  | nil =>
    intro i j x _ h
    exact absurd h (by simp)
  | cons q t ih =>
    intro i j x hnd h
    by_cases hq : (q.1 == i) = true
    · rw [@List.find?_cons_of_pos _ (fun p => p.1 == i) q t hq] at h
      obtain rfl : q = (j, x) := Option.some.inj h
      have hji : j = i := by simpa using hq
      subst hji
      refine ⟨rfl, ?_⟩
      have hkeys : ∀ p ∈ t, ¬ p.1 = j := by
        intro p hp hpj
        have hj : j ∈ t.map Prod.fst := List.mem_map.mpr ⟨p, hp, hpj⟩
        simp only [List.map_cons, List.nodup_cons] at hnd
        exact hnd.1 hj
      have hfilter : t.filter (fun p => p.1 != j) = t := by
        refine List.filter_eq_self.mpr ?_
        intro a ha
        simpa [bne] using hkeys a ha
      have hneg : ¬ ((fun p : Nat × X => p.1 != j) (j, x)) = true := by simp
      rw [@List.filter_cons_of_neg _ (fun p => p.1 != j) (j, x) t hneg, hfilter]
    · rw [@List.find?_cons_of_neg _ (fun p => p.1 == i) q t hq] at h
      have hnd' : (t.map Prod.fst).Nodup := by
        simp only [List.map_cons, List.nodup_cons] at hnd
        exact hnd.2
      obtain ⟨hji, hperm⟩ := ih i j x hnd' h
      refine ⟨hji, ?_⟩
      have hqkeep : (fun p : Nat × X => p.1 != i) q = true := by
        simpa [bne] using hq
      rw [@List.filter_cons_of_pos _ (fun p => p.1 != i) q t hqkeep]
      exact (hperm.cons q).trans (List.Perm.swap (j, x) q _)

/-- Slot keys stay pairwise distinct across a step (a consumed slot's key is
the only key that may be re-inserted). -/
theorem mcStep_keys_nodup {X Y : Type} (f : X → Y) (s : MCState X Y) (i : Nat)
    (h : (s.window.map Prod.fst).Nodup) :
    ((mcStep f s i).window.map Prod.fst).Nodup := by
  simp only [mcStep]
  split
  · exact h
  · rename_i p x heq
    have hfsub : ((s.window.filter (fun q => q.1 != i)).map Prod.fst).Sublist
        (s.window.map Prod.fst) :=
      (List.filter_sublist s.window).map Prod.fst
    have hfnd : ((s.window.filter (fun q => q.1 != i)).map Prod.fst).Nodup :=
      List.Nodup.sublist hfsub h
    split
    · exact hfnd
    · rw [List.map_append]
      refine List.nodup_append.mpr ⟨hfnd, List.nodup_singleton i, ?_⟩
      intro a ha hai
      obtain ⟨q, hq, rfl⟩ := List.mem_map.mp ha
      have : (q.1 != i) = true := (List.mem_filter.mp hq).2
      have hne : ¬ q.1 = i := by simpa [bne] using this
      exact hne (by simpa using hai)

/-- A step preserves the conservation invariant: output, in-flight window and
undrawn input together are a permutation of the whole input's image. -/
theorem mcStep_out_perm {X Y : Type} (f : X → Y) (s : MCState X Y) (i : Nat) (tot : List Y)
    (hnd : (s.window.map Prod.fst).Nodup)
    (h : (s.out ++ (s.window.map (fun p => f p.2)) ++ (s.rest.map f)).Perm tot) :
    ((mcStep f s i).out ++ ((mcStep f s i).window.map (fun p => f p.2))
      ++ ((mcStep f s i).rest.map f)).Perm tot := by
  simp only [mcStep]
  split
  · exact h
  · rename_i p x heq
    obtain ⟨hji, hperm⟩ := window_extract s.window i p x hnd heq
    have hmap : (s.window.map (fun q => f q.2)).Perm
        (f x :: (s.window.filter (fun q => q.1 != i)).map (fun q => f q.2)) := by
      simpa using hperm.map (fun q => f q.2)
    split
    · rename_i hr
      rw [hr] at h
      simp only [List.map_nil, List.append_nil] at h ⊢
      have e1 : (s.out ++ [f x])
            ++ (s.window.filter (fun q => q.1 != i)).map (fun q => f q.2)
          = s.out ++ ((f x :: (s.window.filter (fun q => q.1 != i)).map (fun q => f q.2))) := by
        simp [List.append_assoc]
      rw [e1]
      exact (List.Perm.append_left s.out hmap.symm).trans h
    · rename_i x' r hr
      rw [hr] at h
      simp only [List.map_append, List.map_cons, List.map_nil] at h ⊢
      have e1 : (s.out ++ [f x])
            ++ ((s.window.filter (fun q => q.1 != i)).map (fun q => f q.2) ++ [f x'])
            ++ (r.map f)
          = s.out ++ ((f x :: (s.window.filter (fun q => q.1 != i)).map (fun q => f q.2))
              ++ (f x' :: r.map f)) := by
        simp [List.append_assoc]
      rw [e1]
      have h2 : ((f x :: (s.window.filter (fun q => q.1 != i)).map (fun q => f q.2))
            ++ (f x' :: r.map f)).Perm
          ((s.window.map (fun q => f q.2)) ++ (f x' :: r.map f)) :=
        List.Perm.append_right _ hmap.symm
      refine (List.Perm.append_left s.out h2).trans ?_
      rw [← List.append_assoc]
      exact h

/-- Run-level key distinctness and conservation. -/
theorem mcRun_keys_nodup_out_perm {X Y : Type} (f : X → Y) (tot : List Y) :
    ∀ (sched : List Nat) (s : MCState X Y),
      (s.window.map Prod.fst).Nodup →
      ((s.out ++ (s.window.map (fun p => f p.2)) ++ (s.rest.map f)).Perm tot) →
      ((mcRun f s sched).window.map Prod.fst).Nodup ∧
        (((mcRun f s sched).out ++ ((mcRun f s sched).window.map (fun p => f p.2))
          ++ ((mcRun f s sched).rest.map f)).Perm tot) := by
  intro sched
  induction sched with
  | nil => intro s h1 h2; exact ⟨h1, h2⟩
  | cons i t ih =>
    intro s h1 h2
    simp only [mcRun, List.foldl_cons]
    exact ih (mcStep f s i) (mcStep_keys_nodup f s i h1) (mcStep_out_perm f s i tot h1 h2)

/-- Initially the slot keys `0, 1, ...` are pairwise distinct. -/
theorem mcInit_keys_nodup {X Y : Type} (xs : List X) (K : Nat) :
    ((mcInit xs K : MCState X Y).window.map Prod.fst).Nodup := by
  simp [mcInit, takeFromIter, List.enum_map_fst, List.nodup_range]

/-- Initially the conservation invariant holds. -/
theorem mcInit_out_perm {X Y : Type} (f : X → Y) (xs : List X) (K : Nat) :
    ((mcInit xs K : MCState X Y).out
      ++ ((mcInit xs K : MCState X Y).window.map (fun p => f p.2))
      ++ ((mcInit xs K : MCState X Y).rest.map f)).Perm (xs.map f) := by
  simp only [mcInit, takeFromIter, List.nil_append]
  have h1 : (xs.take K).enum.map (fun p => f p.2) = (xs.take K).map f := by
    rw [show (fun p : Nat × X => f p.2) = f ∘ Prod.snd from rfl, ← List.map_map,
      List.enum_map_snd]
  rw [h1, ← List.map_append, List.take_append_drop]

/-- Under any schedule the values yielded by the scheduler are pairwise
distinct hosts when the input set is duplicate-free. -/
theorem mcRun_out_nodup (xs : List String) (K : Nat) (sched : List Nat)
    (hnd : xs.Nodup) :
    (mcRun pingResult (mcInit xs K) sched).out.Nodup := by
  have hperm := (mcRun_keys_nodup_out_perm pingResult (xs.map pingResult) sched (mcInit xs K)
    (mcInit_keys_nodup xs K) (mcInit_out_perm pingResult xs K)).2
  have hid : xs.map pingResult = xs := by
    rw [show pingResult = fun a => a from rfl, List.map_id']
  rw [hid] at hperm
  have hbig := hperm.symm.nodup hnd
  have hsub : (mcRun pingResult (mcInit xs K) sched).out.Sublist
      ((mcRun pingResult (mcInit xs K) sched).out
        ++ ((mcRun pingResult (mcInit xs K) sched).window.map (fun p => pingResult p.2))
        ++ ((mcRun pingResult (mcInit xs K) sched).rest.map pingResult)) :=
    (List.sublist_append_left _ _).trans (List.sublist_append_left _ _)
  exact List.Nodup.sublist hsub hbig

/-- Every value yielded by the scheduler is one of the input addresses. -/
theorem mcRun_out_subset (xs : List String) (K : Nat) (sched : List Nat) :
    ∀ a ∈ (mcRun pingResult (mcInit xs K) sched).out, a ∈ xs := by
  intro a ha
  have hperm := (mcRun_keys_nodup_out_perm pingResult (xs.map pingResult) sched (mcInit xs K)
    (mcInit_keys_nodup xs K) (mcInit_out_perm pingResult xs K)).2
  have hid : xs.map pingResult = xs := by
    rw [show pingResult = fun a => a from rfl, List.map_id']
  rw [hid] at hperm
  exact hperm.subset (List.mem_append_left _ (List.mem_append_left _ ha))

/-- `flatMap` over per-item contributions bounded by singletons is a sublist
of the item list. -/
theorem map_flatMap_sublist {α β : Type} (f : β → α) (g : α → List β) :
    ∀ (l : List α), (∀ a ∈ l, ((g a).map f).Sublist [a]) →
      ((l.flatMap g).map f).Sublist l := by
  intro l
  induction l with
  | nil => intro _; simp
  | cons a t ih =>
    intro h
    rw [List.flatMap_cons, List.map_append]
    have := List.Sublist.append (h a (List.mem_cons_self a t))
      (ih (fun b hb => h b (List.mem_cons_of_mem a hb)))
    simpa using this

/-- Counterexample for C6: the scan applies no deduplication. With the target set
`{10.0.0.1, 10.0.0.2}` and a neighbour-table lookup that returns, for either
probed host, a (stale) entry for `10.0.0.1`, one fully drained scan emits the
record with IP `10.0.0.1` twice — the claimed duplicate-freedom of the
streaming sequence fails. -/
theorem scan_can_emit_duplicates :
    ¬ ((((scanRun ["10.0.0.1", "10.0.0.2"] 2
        (fun _ => some [⟨"10.0.0.1", "aa:aa:aa:aa:aa:aa", none, none, none⟩])
        [0, 1]).1).map Device.ip).Nodup) := by
  decide

/-- Amended claim C6: the scan performs no deduplication and can emit two records
with the same IP (see `scan_can_emit_duplicates`); the stream is
duplicate-free whenever the lookup collaborator returns, for each host of the
(duplicate-free) target set, at most one entry and only entries whose IP is
that host — i.e. exactly when the neighbour table never serves stale or
cross-host records. -/
theorem scan_nodup_of_pointwise_lookup (S : List String) (K : Nat)
    (lookup : String → Option (List Device)) (sched : List Nat)
    (hS : S.Nodup)
    (hl : ∀ h ∈ S, ((lookup h).getD []).length ≤ 1 ∧
      ∀ d ∈ (lookup h).getD [], d.ip = h) :
    (((scanRun S K lookup sched).1).map Device.ip).Nodup := by
  simp only [scanRun, scanEmit]
  have hout := mcRun_out_nodup S K sched hS
  refine List.Nodup.sublist (map_flatMap_sublist Device.ip _ _ ?_) hout
  intro a ha
  have haS : a ∈ S := mcRun_out_subset S K sched a ha
  obtain ⟨hlen, hip⟩ := hl a haS
  match hL : (lookup a).getD [] with
  | [] => simp
  | [d] =>
    have hd : d.ip = a := hip d (by rw [hL]; exact List.mem_singleton_self d)
    have hc : S.contains d.ip = true := by
      rw [hd]
      exact List.elem_iff.mpr haS
    rw [List.filter_singleton, hc]
    simp [hd]
  | d1 :: d2 :: L =>
    rw [hL] at hlen
    simp at hlen

/-- Witness for the amended C6: a lookup that answers each host with exactly
its own entry yields a duplicate-free stream. -/
theorem scan_nodup_of_pointwise_lookup_witness :
    (["10.0.0.1", "10.0.0.2"] : List String).Nodup ∧
    ((((scanRun ["10.0.0.1", "10.0.0.2"] 2
        (fun h => some [⟨h, "aa:aa:aa:aa:aa:aa", none, none, none⟩])
        [0, 1]).1).map Device.ip).Nodup) :=
  ⟨by decide,
    scan_nodup_of_pointwise_lookup ["10.0.0.1", "10.0.0.2"] 2
      (fun h => some [⟨h, "aa:aa:aa:aa:aa:aa", none, none, none⟩]) [0, 1]
      (by decide) (by decide)⟩

/-! ## The sort comparator and canonical IP ordering -/

/-- On octet lists of equal length the source comparator agrees with the
canonical numeric lexicographic ordering: `arrayCompare` is nonpositive
exactly when the first list is lexicographically at most the second. -/
theorem arrayCompare_le_iff :
    ∀ (as bs : List Int), as.length = bs.length →
      (arrayCompare as bs ≤ 0 ↔ octetsLe as bs = true) := by
  intro as
  induction as with
  | nil =>
    intro bs hlen
    cases bs with
    | nil => simp [arrayCompare, octetsLe]
    | cons b bs' => simp at hlen
  | cons a as' ih =>
    intro bs hlen
    cases bs with
    | nil => simp at hlen
    | cons b bs' =>
      have hlen' : as'.length = bs'.length := by simpa using hlen
      rcases lt_trichotomy a b with hab | hab | hab
      · have hs : sign (a - b) = -1 := by
          unfold sign
          split_ifs <;> omega
        simp [arrayCompare, octetsLe, hs, hab]
      · subst hab
        have hs0 : sign (0 : Int) = 0 := by
          unfold sign
          split_ifs <;> omega
        by_cases hnil : as' = []
        · subst hnil
          have hbs : bs' = [] := by
            cases bs' with
            | nil => rfl
            | cons c cs => simp at hlen'
          subst hbs
          simp [arrayCompare, octetsLe, hs0]
        · simp [arrayCompare, octetsLe, hs0, hnil, ih bs' hlen']
      · have hs : sign (a - b) = 1 := by
          unfold sign
          split_ifs <;> omega
        have h10 : ¬ ((1 : Int) ≤ 0) := by omega
        have hnlt : ¬ a < b := by omega
        have hne : ¬ a = b := by omega
        simp [arrayCompare, octetsLe, hs, h10, hnlt, hne]

/-- The canonical ordering is total on octet lists of equal length. -/
theorem octetsLe_total :
    ∀ (as bs : List Int), as.length = bs.length →
      octetsLe as bs = true ∨ octetsLe bs as = true := by
  intro as
  induction as with
  | nil =>
    intro bs _
    left
    cases bs <;> simp [octetsLe]
  | cons a as' ih =>
    intro bs h
    cases bs with
    | nil => simp at h
    | cons b bs' =>
      have h' : as'.length = bs'.length := by simpa using h
      rcases lt_trichotomy a b with hab | hab | hab
      · left; simp [octetsLe, hab]
      · subst hab
        rcases ih bs' h' with hh | hh
        · left; simp [octetsLe, hh]
        · right; simp [octetsLe, hh]
      · right; simp [octetsLe, hab]

/-- The canonical ordering is transitive on octet lists of equal length. -/
theorem octetsLe_trans :
    ∀ (as bs cs : List Int), as.length = bs.length → bs.length = cs.length →
      octetsLe as bs = true → octetsLe bs cs = true → octetsLe as cs = true := by
  intro as
  induction as with
  | nil =>
    intro bs cs _ _ _ _
    cases cs <;> simp [octetsLe]
  | cons a as' ih =>
    intro bs cs h1 h2 hab hbc
    cases bs with
    | nil => simp at h1
    | cons b bs' =>
      cases cs with
      | nil => simp at h2
      | cons c cs' =>
        have h1' : as'.length = bs'.length := by simpa using h1
        have h2' : bs'.length = cs'.length := by simpa using h2
        simp only [octetsLe, Bool.or_eq_true, Bool.and_eq_true,
          decide_eq_true_eq] at hab hbc ⊢
        rcases hab with hab | ⟨hab, habr⟩
        · rcases hbc with hbc | ⟨hbc, hbcr⟩
          · left; omega
          · left; omega
        · rcases hbc with hbc | ⟨hbc, hbcr⟩
          · left; omega
          · right; exact ⟨by omega, ih bs' cs' h1' h2' habr hbcr⟩

/-- Membership through ordered insertion. -/
theorem mem_orderedInsertBy {α : Type} (le : α → α → Bool) (a : α) :
    ∀ (l : List α) (x : α), x ∈ orderedInsertBy le a l ↔ x = a ∨ x ∈ l := by
  intro l
  induction l with
  | nil => intro x; simp [orderedInsertBy]
  | cons b t ih =>
    intro x
    simp only [orderedInsertBy]
    by_cases hab : le a b = true
    · rw [if_pos hab]
      simp only [List.mem_cons]
    · rw [if_neg hab]
      simp only [List.mem_cons, ih x]
      tauto

/-- Membership through the comparison sort. -/
theorem mem_sortBy {α : Type} (le : α → α → Bool) :
    ∀ (l : List α) (x : α), x ∈ sortBy le l ↔ x ∈ l := by
  intro l
  induction l with
  | nil => intro x; simp [sortBy]
  | cons a t ih =>
    intro x
    simp only [sortBy]
    rw [mem_orderedInsertBy]
    simp only [List.mem_cons, ih x]

/-- Inserting into a sorted list keeps it sorted, provided the comparator is
total and transitive on the elements involved. -/
theorem pairwise_orderedInsertBy {α : Type} (le : α → α → Bool) :
    ∀ (l : List α) (a : α),
      (∀ x ∈ l, le a x = true ∨ le x a = true) →
      (∀ x ∈ l, ∀ y ∈ l, le a x = true → le x y = true → le a y = true) →
      l.Pairwise (fun x y => le x y = true) →
      (orderedInsertBy le a l).Pairwise (fun x y => le x y = true) := by
  intro l
  induction l with
  | nil =>
    intro a _ _ _
    simp [orderedInsertBy]
  | cons b t ih =>
    intro a htot htrans hp
    simp only [orderedInsertBy]
    split
    · rename_i hab
      refine List.Pairwise.cons ?_ hp
      intro y hy
      rcases List.mem_cons.mp hy with rfl | hyt
      · exact hab
      · have hby : le b y = true := (List.pairwise_cons.mp hp).1 y hyt
        exact htrans b (List.mem_cons_self b t) y (List.mem_cons_of_mem b hyt) hab hby
    · rename_i hab
      have hba : le b a = true := by
        rcases htot b (List.mem_cons_self b t) with h | h
        · exact absurd h hab
        · exact h
      obtain ⟨hb, hpt⟩ := List.pairwise_cons.mp hp
      refine List.pairwise_cons.mpr ⟨?_, ?_⟩
      · intro y hy
        rcases (mem_orderedInsertBy le a t y).mp hy with rfl | hyt
        · exact hba
        · exact hb y hyt
      · exact ih a (fun x hx => htot x (List.mem_cons_of_mem b hx))
          (fun x hx y hy => htrans x (List.mem_cons_of_mem b hx) y (List.mem_cons_of_mem b hy))
          hpt

/-- The comparison sort sorts, provided the comparator is total and
transitive on a universe containing every element. -/
theorem pairwise_sortBy {α : Type} (le : α → α → Bool) (u : List α)
    (htot : ∀ x ∈ u, ∀ y ∈ u, le x y = true ∨ le y x = true)
    (htrans : ∀ x ∈ u, ∀ y ∈ u, ∀ z ∈ u,
      le x y = true → le y z = true → le x z = true) :
    ∀ (l : List α), (∀ x ∈ l, x ∈ u) →
      (sortBy le l).Pairwise (fun x y => le x y = true) := by
  intro l
  induction l with
  | nil =>
    intro _
    simp [sortBy]
  | cons a t ih =>
    intro hsub
    simp only [sortBy]
    have hau : a ∈ u := hsub a (List.mem_cons_self a t)
    have htu : ∀ x ∈ t, x ∈ u := fun x hx => hsub x (List.mem_cons_of_mem a hx)
    have hmem : ∀ x ∈ sortBy le t, x ∈ u := by
      intro x hx
      exact htu x ((mem_sortBy le t x).mp hx)
    refine pairwise_orderedInsertBy le (sortBy le t) a ?_ ?_ (ih htu)
    · intro x hx
      exact htot a hau x (hmem x hx)
    · intro x hx y hy hax hxy
      exact htrans a hau x (hmem x hx) y (hmem y hy) hax hxy

/-- A dotted quad parses to exactly four octets. -/
theorem validQuad_length (ip : String) (h : validQuad ip = true) :
    (parseIPv4 ip).length = 4 := by
  simp only [validQuad, Bool.and_eq_true, beq_iff_eq] at h
  simp [parseIPv4, h.1]

/-- On devices whose IPs parse to four octets, the source comparator test
`devLe` coincides with the canonical numeric ordering of the parsed IPs. -/
theorem devLe_eq_octetsLe (a b : Device)
    (ha : (parseIPv4 a.ip).length = 4) (hb : (parseIPv4 b.ip).length = 4) :
    devLe a b = octetsLe (parseIPv4 a.ip) (parseIPv4 b.ip) := by
  have hlen : (parseIPv4 a.ip).length = (parseIPv4 b.ip).length := by rw [ha, hb]
  have hiff := arrayCompare_le_iff (parseIPv4 a.ip) (parseIPv4 b.ip) hlen
  cases hoct : octetsLe (parseIPv4 a.ip) (parseIPv4 b.ip) with
  | false =>
    have hn : ¬ arrayCompare (parseIPv4 a.ip) (parseIPv4 b.ip) ≤ 0 := by
      intro hc
      rw [hiff.mp hc] at hoct
      simp at hoct
    simp [devLe, hn]
  | true =>
    simp [devLe, hiff.mpr hoct]

/-- Claim C7: on any target set and any table of dotted-quad entries, the array
returned by `getLocalDeviceList` is sorted ascending by the canonical
numeric-per-octet IP ordering (each octet compared as a number, not
string-lexicographically). -/
theorem getLocalDeviceList_sorted (S : List String) (table : List Device)
    (hv : ∀ d ∈ table, validQuad d.ip = true) :
    (getLocalDeviceList S table).Pairwise
      (fun a b => octetsLe (parseIPv4 a.ip) (parseIPv4 b.ip) = true) := by
  set u := table.filter (fun d => S.contains d.ip) with hu
  have hvu : ∀ d ∈ u, (parseIPv4 d.ip).length = 4 := by
    intro d hd
    exact validQuad_length d.ip (hv d (List.mem_filter.mp hd).1)
  have htot : ∀ x ∈ u, ∀ y ∈ u, devLe x y = true ∨ devLe y x = true := by
    intro x hx y hy
    have hxy : (parseIPv4 x.ip).length = (parseIPv4 y.ip).length := by
      rw [hvu x hx, hvu y hy]
    rcases octetsLe_total (parseIPv4 x.ip) (parseIPv4 y.ip) hxy with h | h
    · left
      rw [devLe_eq_octetsLe x y (hvu x hx) (hvu y hy)]
      exact h
    · right
      rw [devLe_eq_octetsLe y x (hvu y hy) (hvu x hx)]
      exact h
  have htrans : ∀ x ∈ u, ∀ y ∈ u, ∀ z ∈ u,
      devLe x y = true → devLe y z = true → devLe x z = true := by
    intro x hx y hy z hz h1 h2
    rw [devLe_eq_octetsLe x y (hvu x hx) (hvu y hy)] at h1
    rw [devLe_eq_octetsLe y z (hvu y hy) (hvu z hz)] at h2
    rw [devLe_eq_octetsLe x z (hvu x hx) (hvu z hz)]
    exact octetsLe_trans _ _ _ (by rw [hvu x hx, hvu y hy])
      (by rw [hvu y hy, hvu z hz]) h1 h2
  have hp : (sortBy devLe u).Pairwise (fun x y => devLe x y = true) :=
    pairwise_sortBy devLe u htot htrans u (fun x hx => hx)
  have hps : (getLocalDeviceList S table).Pairwise (fun x y => devLe x y = true) := hp
  refine List.Pairwise.imp_of_mem ?_ hps
  intro a b ha hb hab
  have hau : a ∈ u := (mem_sortBy devLe u a).mp ha
  have hbu : b ∈ u := (mem_sortBy devLe u b).mp hb
  rw [← devLe_eq_octetsLe a b (hvu a hau) (hvu b hbu)]
  exact hab

/-- Witness for C7: the concrete instance of the claim — entries with IPs
`10.0.0.10`, `10.0.0.2`, `10.0.0.9` come out in the order
`10.0.0.2, 10.0.0.9, 10.0.0.10` (numeric, not string, ordering). -/
theorem getLocalDeviceList_sorted_witness :
    (∀ d ∈ ([⟨"10.0.0.10", "aa", none, none, none⟩, ⟨"10.0.0.2", "bb", none, none, none⟩,
        ⟨"10.0.0.9", "cc", none, none, none⟩] : List Device), validQuad d.ip = true) ∧
    (getLocalDeviceList ["10.0.0.10", "10.0.0.2", "10.0.0.9"]
        [⟨"10.0.0.10", "aa", none, none, none⟩, ⟨"10.0.0.2", "bb", none, none, none⟩,
         ⟨"10.0.0.9", "cc", none, none, none⟩]).Pairwise
      (fun a b => octetsLe (parseIPv4 a.ip) (parseIPv4 b.ip) = true) ∧
    (getLocalDeviceList ["10.0.0.10", "10.0.0.2", "10.0.0.9"]
        [⟨"10.0.0.10", "aa", none, none, none⟩, ⟨"10.0.0.2", "bb", none, none, none⟩,
         ⟨"10.0.0.9", "cc", none, none, none⟩]).map Device.ip
      = ["10.0.0.2", "10.0.0.9", "10.0.0.10"] :=
  ⟨by decide,
    getLocalDeviceList_sorted ["10.0.0.10", "10.0.0.2", "10.0.0.9"]
      [⟨"10.0.0.10", "aa", none, none, none⟩, ⟨"10.0.0.2", "bb", none, none, none⟩,
       ⟨"10.0.0.9", "cc", none, none, none⟩] (by decide),
    by decide⟩

end LocalDevices
